import Mathlib

/-!
Shallow embedding of `utils.py` from the DIB repository: pairwise distance
kernels, the temperature-scaled similarity wrapper, closed-form Gaussian
divergences (Bhattacharyya, KL), and the mutual-information sandwich-bound
estimator.  Arrays of shape N×d are embedded as functions `Fin N → Fin d → ℝ`;
floating-point arithmetic is embedded as exact real arithmetic.
-/

namespace DIB

open Finset

/-- Embeds `pairwise_l2_distance` (utils.py): squared L2 distances via the
expansion ‖a‖² + ‖b‖² − 2a·b, clamped at 0 by `tf.maximum`. -/
noncomputable def pairwise_l2_distance {N M d : ℕ}
    (pts1 : Fin N → Fin d → ℝ) (pts2 : Fin M → Fin d → ℝ) : Fin N → Fin M → ℝ :=
  fun i j =>
    max ((∑ k, pts1 i k ^ 2) + (∑ k, pts2 j k ^ 2) - 2 * ∑ k, pts1 i k * pts2 j k) 0

/-- Embeds `pairwise_l1_distance` (utils.py): sum of absolute per-dimension
differences. -/
noncomputable def pairwise_l1_distance {N M d : ℕ}
    (pts1 : Fin N → Fin d → ℝ) (pts2 : Fin M → Fin d → ℝ) : Fin N → Fin M → ℝ :=
  fun i j => ∑ k, |pts1 i k - pts2 j k|

/-- Embeds `pairwise_linf_distance` (utils.py): maximum absolute per-dimension
difference (`tf.reduce_max` over the last axis, so the dimension is positive). -/
noncomputable def pairwise_linf_distance {N M d : ℕ}
    (pts1 : Fin N → Fin (d + 1) → ℝ) (pts2 : Fin M → Fin (d + 1) → ℝ) :
    Fin N → Fin M → ℝ :=
  fun i j => Finset.univ.sup' ⟨0, Finset.mem_univ 0⟩ fun k => |pts1 i k - pts2 j k|

/-- The real-arithmetic value of one row of `tf.linalg.normalize(·, ord=2,
axis=-1)` as used in the cosine branch of `get_scaled_similarity`: divide the
row by its L2 norm.  This is the value the code computes on rows of nonzero
norm; the code has no zero-norm guard, and the float behavior at a zero norm
(0/0 = NaN) is modelled separately by `l2_normalize_unguarded`. -/
noncomputable def l2_normalize {d : ℕ} (x : Fin d → ℝ) : Fin d → ℝ :=
  fun k => x k / Real.sqrt (∑ m, x m ^ 2)

/-- IEEE-style division as performed by `tf.linalg.normalize`: a zero divisor
produces a non-finite value, modelled as `none` (at the zero-norm-row use site
the numerator is zero too, so the float value is NaN). -/
noncomputable def fdiv (x y : ℝ) : Option ℝ :=
  if y = 0 then none else some (x / y)

/-- Embeds `tf.linalg.normalize(·, ord=2, axis=-1)` faithfully to the float
semantics of its division: the row is divided entrywise by its L2 norm with no
zero-norm guard and no epsilon, so a zero-norm row produces NaN (`none`) in
every coordinate. -/
noncomputable def l2_normalize_unguarded {d : ℕ} (x : Fin d → ℝ) : Fin d → Option ℝ :=
  fun k => fdiv (x k) (Real.sqrt (∑ m, x m ^ 2))

/-- NaN-propagating dot product of possibly-NaN vectors: a `none` (NaN) in any
coordinate poisons the sum, as in float arithmetic. -/
noncomputable def odot {d : ℕ} (v w : Fin d → Option ℝ) : Option ℝ :=
  (List.ofFn fun k => Option.map₂ (· * ·) (v k) (w k)).foldr (Option.map₂ (· + ·)) (some 0)

/-- The (i, j) entry of the cosine-similarity matrix before temperature
scaling, computed with the unguarded normalization and NaN propagation of the
float execution of the cosine branch. -/
noncomputable def cosine_similarity_unguarded {N M d : ℕ}
    (embeddings1 : Fin N → Fin (d + 1) → ℝ) (embeddings2 : Fin M → Fin (d + 1) → ℝ) :
    Fin N → Fin M → Option ℝ :=
  fun i j =>
    odot (l2_normalize_unguarded (embeddings1 i)) (l2_normalize_unguarded (embeddings2 j))

/-- Embeds `get_scaled_similarity` (utils.py): dispatch on the similarity-type
string, negate the distance kernels (adding eps = 1e-9 inside the square root
for the `l2` kind), take normalized dot products for `cosine`, divide by the
temperature, and raise `ValueError` for an unrecognized kind. -/
noncomputable def get_scaled_similarity {N M d : ℕ}
    (embeddings1 : Fin N → Fin (d + 1) → ℝ) (embeddings2 : Fin M → Fin (d + 1) → ℝ)
    (similarity_type : String) (temperature : ℝ) :
    Except String (Fin N → Fin M → ℝ) :=
  let eps : ℝ := 1e-9
  if similarity_type = "l2sq" then
    Except.ok fun i j => (-1 * pairwise_l2_distance embeddings1 embeddings2 i j) / temperature
  else if similarity_type = "l2" then
    Except.ok fun i j =>
      (-1 * Real.sqrt (pairwise_l2_distance embeddings1 embeddings2 i j + eps)) / temperature
  else if similarity_type = "l1" then
    Except.ok fun i j => (-1 * pairwise_l1_distance embeddings1 embeddings2 i j) / temperature
  else if similarity_type = "linf" then
    Except.ok fun i j => (-1 * pairwise_linf_distance embeddings1 embeddings2 i j) / temperature
  else if similarity_type = "cosine" then
    Except.ok fun i j =>
      (∑ k, l2_normalize (embeddings1 i) k * l2_normalize (embeddings2 j) k) / temperature
  else Except.error ("Similarity type not implemented: " ++ similarity_type)

/-- Embeds `bhattacharyya_dist_mat` (utils.py): pairwise Bhattacharyya distances
between diagonal Gaussians, with the quadratic form taken through an explicit
diagonal matrix exactly as the numpy code builds it. -/
noncomputable def bhattacharyya_dist_mat {N M d : ℕ}
    (mus1 logvars1 : Fin N → Fin d → ℝ) (mus2 logvars2 : Fin M → Fin d → ℝ) :
    Fin N → Fin M → ℝ :=
  fun i j =>
    let difference_mus : Fin d → ℝ := fun k => mus1 i k - mus2 j k
    let sigma_diag : Fin d → ℝ := fun k =>
      0.5 * (Real.exp (logvars1 i k) + Real.exp (logvars2 j k))
    let sigma_mat_inv : Matrix (Fin d) (Fin d) ℝ := Matrix.diagonal fun k => 1 / sigma_diag k
    let determinant_sigma : ℝ := ∏ k, sigma_diag k
    let determinant_sigma1 : ℝ := Real.exp (∑ k, logvars1 i k)
    let determinant_sigma2 : ℝ := Real.exp (∑ k, logvars2 j k)
    let term1 : ℝ :=
      0.125 * Matrix.dotProduct difference_mus (sigma_mat_inv.mulVec difference_mus)
    let term2 : ℝ :=
      0.5 * Real.log (determinant_sigma / Real.sqrt (determinant_sigma1 * determinant_sigma2))
    term1 + term2

/-- Embeds `kl_divergence_mat` (utils.py): pairwise KL divergences
KL(N1‖N2) between diagonal Gaussians, with Δμ = μ2 − μ1 and the quadratic
form taken through the explicit diagonal inverse-covariance matrix. -/
noncomputable def kl_divergence_mat {N M d : ℕ}
    (mus1 logvars1 : Fin N → Fin d → ℝ) (mus2 logvars2 : Fin M → Fin d → ℝ) :
    Fin N → Fin M → ℝ :=
  fun i j =>
    let difference_mus : Fin d → ℝ := fun k => mus2 j k - mus1 i k
    let sigma1_diag : Fin d → ℝ := fun k => Real.exp (logvars1 i k)
    let sigma2_diag : Fin d → ℝ := fun k => Real.exp (logvars2 j k)
    let sigma2_inv_diag : Fin d → ℝ := fun k => Real.exp (-logvars2 j k)
    let sigma2_mat_inv : Matrix (Fin d) (Fin d) ℝ := Matrix.diagonal fun k => 1 / sigma2_diag k
    let term1 : ℝ := ∑ k, sigma2_inv_diag k * sigma1_diag k
    let term2 : ℝ := Matrix.dotProduct difference_mus (sigma2_mat_inv.mulVec difference_mus)
    0.5 * ((∑ k, logvars2 j k) - (∑ k, logvars1 i k) - (d : ℝ) + term1 + term2)

/-- Embeds the shape guard of `bhattacharyya_dist_mat`: the Python `assert
(mus2.shape[1] == embedding_dimension)` runs before any pairwise computation,
so a mismatched embedding dimension fails fast (ShapeMismatch). -/
noncomputable def bhattacharyya_dist_mat_checked (N d1 M d2 : ℕ)
    (mus1 logvars1 : Fin N → Fin d1 → ℝ) (mus2 logvars2 : Fin M → Fin d2 → ℝ) :
    Except String (Fin N → Fin M → ℝ) :=
  if h : d2 = d1 then
    Except.ok (bhattacharyya_dist_mat mus1 logvars1
      (fun j k => mus2 j (Fin.cast h.symm k)) (fun j k => logvars2 j (Fin.cast h.symm k)))
  else Except.error "ShapeMismatch"

/-- Embeds the shape guard of `kl_divergence_mat`: the Python `assert
(mus2.shape[1] == embedding_dimension)` runs before any pairwise computation,
so a mismatched embedding dimension fails fast (ShapeMismatch). -/
noncomputable def kl_divergence_mat_checked (N d1 M d2 : ℕ)
    (mus1 logvars1 : Fin N → Fin d1 → ℝ) (mus2 logvars2 : Fin M → Fin d2 → ℝ) :
    Except String (Fin N → Fin M → ℝ) :=
  if h : d2 = d1 then
    Except.ok (kl_divergence_mat mus1 logvars1
      (fun j k => mus2 j (Fin.cast h.symm k)) (fun j k => logvars2 j (Fin.cast h.symm k)))
  else Except.error "ShapeMismatch"

/-- Embeds the conditional-density matrix of `compute_batch` inside
`estimate_mi_sandwich_bounds` (utils.py): entry (i, j) is
`exp(-Σ_k ((u_i_k − μ_j_k)/σ_j_k)²/2 − Σ_k logvar_j_k/2) / (2π)^(d/2)`,
with the encoder outputs and the sampled points taken as given inputs. -/
noncomputable def p_ui_cond_xj {B d : ℕ}
    (mus logvars sampled_u_values : Fin B → Fin d → ℝ) : Fin B → Fin B → ℝ :=
  fun i j =>
    Real.exp
        (-(∑ k, ((sampled_u_values i k - mus j k) / Real.exp (logvars j k / 2)) ^ 2) / 2
          - (∑ k, logvars j k) / 2) /
      (2 * Real.pi) ^ ((d : ℝ) / 2)

/-- Embeds the InfoNCE lower-bound line of `compute_batch`: the diagonal term
over the row-mean of the density matrix, logged, then averaged over rows. -/
noncomputable def infonce_lower {B d : ℕ}
    (mus logvars sampled_u_values : Fin B → Fin d → ℝ) : ℝ :=
  (∑ i, Real.log (p_ui_cond_xj mus logvars sampled_u_values i i /
      ((∑ j, p_ui_cond_xj mus logvars sampled_u_values i j) / (B : ℝ)))) / (B : ℝ)

/-- Embeds the multiplication of the density matrix by `(1 − tf.eye B)` in
`compute_batch`: the diagonal is zeroed, off-diagonal entries are unchanged. -/
noncomputable def p_masked {B d : ℕ}
    (mus logvars sampled_u_values : Fin B → Fin d → ℝ) : Fin B → Fin B → ℝ :=
  fun i j =>
    p_ui_cond_xj mus logvars sampled_u_values i j * (1 - if i = j then 1 else 0)

/-- Embeds the leave-one-out upper-bound line of `compute_batch`: same as the
lower bound but the row-mean in the denominator runs over the diagonal-zeroed
density matrix. -/
noncomputable def loo_upper {B d : ℕ}
    (mus logvars sampled_u_values : Fin B → Fin d → ℝ) : ℝ :=
  (∑ i, Real.log (p_ui_cond_xj mus logvars sampled_u_values i i /
      ((∑ j, p_masked mus logvars sampled_u_values i j) / (B : ℝ)))) / (B : ℝ)

/-- Embeds the batch loop of `estimate_mi_sandwich_bounds`: the per-batch
(lower, upper) estimates are averaged with `np.mean` over the evaluation
batches.  Each batch is given by its encoder outputs (mus, logvars) and the
sampled latent points u. -/
noncomputable def estimate_mi_sandwich_bounds {B d : ℕ}
    (batches : List ((Fin B → Fin d → ℝ) × (Fin B → Fin d → ℝ) × (Fin B → Fin d → ℝ))) :
    ℝ × ℝ :=
  ((batches.map fun t => infonce_lower t.1 t.2.1 t.2.2).sum / (batches.length : ℝ),
   (batches.map fun t => loo_upper t.1 t.2.1 t.2.2).sum / (batches.length : ℝ))

/-- The probability density of the diagonal Gaussian `N(mu, diag(exp logvar))`
at `x` — the conditional density `p(u|x)` the spec describes, written as the
product over dimensions of one-dimensional normal densities. -/
noncomputable def gaussian_pdf {d : ℕ} (x mu logvar : Fin d → ℝ) : ℝ :=
  ∏ k, Real.exp (-(x k - mu k) ^ 2 / (2 * Real.exp (logvar k))) /
    Real.sqrt (2 * Real.pi * Real.exp (logvar k))

/-! ### Helper lemmas -/

/-- The clamped expansion in `pairwise_l2_distance` equals the squared
Euclidean distance. -/
lemma pairwise_l2_eq {N M d : ℕ} (pts1 : Fin N → Fin d → ℝ) (pts2 : Fin M → Fin d → ℝ)
    (i : Fin N) (j : Fin M) :
    pairwise_l2_distance pts1 pts2 i j = ∑ k, (pts1 i k - pts2 j k) ^ 2 := by
  unfold pairwise_l2_distance
  have h : (∑ k, pts1 i k ^ 2) + (∑ k, pts2 j k ^ 2) - 2 * ∑ k, pts1 i k * pts2 j k
      = ∑ k, (pts1 i k - pts2 j k) ^ 2 := by
    rw [Finset.mul_sum, ← Finset.sum_add_distrib, ← Finset.sum_sub_distrib]
    exact Finset.sum_congr rfl fun k _ => by ring
  rw [h]
  exact max_eq_left (Finset.sum_nonneg fun k _ => sq_nonneg _)

/-- Entrywise closed form of the embedded `kl_divergence_mat`. -/
lemma kl_entry {N M d : ℕ} (mus1 logvars1 : Fin N → Fin d → ℝ)
    (mus2 logvars2 : Fin M → Fin d → ℝ) (i : Fin N) (j : Fin M) :
    kl_divergence_mat mus1 logvars1 mus2 logvars2 i j
      = 0.5 * ((∑ k, Real.exp (logvars1 i k) / Real.exp (logvars2 j k))
          + (∑ k, (mus2 j k - mus1 i k) ^ 2 / Real.exp (logvars2 j k))
          + (∑ k, logvars2 j k) - (∑ k, logvars1 i k) - (d : ℝ)) := by
  unfold kl_divergence_mat
  simp only [Matrix.dotProduct, Matrix.mulVec_diagonal]
  rw [show (∑ k, Real.exp (-logvars2 j k) * Real.exp (logvars1 i k))
      = ∑ k, Real.exp (logvars1 i k) / Real.exp (logvars2 j k) from
    Finset.sum_congr rfl fun k _ => by rw [Real.exp_neg]; ring]
  rw [show (∑ k, (mus2 j k - mus1 i k) * (1 / Real.exp (logvars2 j k) * (mus2 j k - mus1 i k)))
      = ∑ k, (mus2 j k - mus1 i k) ^ 2 / Real.exp (logvars2 j k) from
    Finset.sum_congr rfl fun k _ => by ring]
  ring

/-! ### Claims -/

/-- C3: for all Gaussian batches, the (i, j) entry of `kl_divergence_mat` is the
closed-form KL divergence for diagonal Gaussians,
`0.5 * (Σ_k exp(logvar1)/exp(logvar2) + Σ_k (μ2 − μ1)²/exp(logvar2)
+ Σ_k logvar2 − Σ_k logvar1 − d)` with Δμ = μ2 − μ1. -/
theorem kl_divergence_mat_closed_form :
    ∀ (N M d : ℕ) (mus1 logvars1 : Fin N → Fin d → ℝ)
      (mus2 logvars2 : Fin M → Fin d → ℝ) (i : Fin N) (j : Fin M),
      kl_divergence_mat mus1 logvars1 mus2 logvars2 i j
        = 0.5 * ((∑ k, Real.exp (logvars1 i k) / Real.exp (logvars2 j k))
            + (∑ k, (mus2 j k - mus1 i k) ^ 2 / Real.exp (logvars2 j k))
            + (∑ k, logvars2 j k) - (∑ k, logvars1 i k) - (d : ℝ)) :=
  fun _ _ _ mus1 logvars1 mus2 logvars2 i j => kl_entry mus1 logvars1 mus2 logvars2 i j

/-- C5 counterexample: for the two-Gaussian batch (means 0 and 1, unit
variances) compared to itself, `kl_divergence_mat` is not the zero matrix:
the off-diagonal entry (0, 1) is 1/2 ≠ 0. -/
theorem kl_self_matrix_not_zero :
    kl_divergence_mat ![![(0 : ℝ)], ![1]] ![![(0 : ℝ)], ![0]]
      ![![(0 : ℝ)], ![1]] ![![(0 : ℝ)], ![0]] 0 1 ≠ 0 := by
  rw [kl_entry]
  simp [Fin.sum_univ_one]
  norm_num

/-- C5 amended: for every Gaussian batch compared to itself, every diagonal
entry of `kl_divergence_mat` is zero — `KL(N_i ‖ N_i) = 0` — though for a batch
of two or more distinct Gaussians the off-diagonal entries need not vanish. -/
theorem kl_self_diagonal_zero :
    ∀ (N d : ℕ) (mus logvars : Fin N → Fin d → ℝ) (i : Fin N),
      kl_divergence_mat mus logvars mus logvars i i = 0 := by
  intro N d mus logvars i
  rw [kl_entry]
  rw [show (∑ k, Real.exp (logvars i k) / Real.exp (logvars i k)) = (d : ℝ) by
    rw [Finset.sum_congr rfl fun k _ => div_self (Real.exp_ne_zero _)]
    simp]
  simp

/-- C4 counterexample: `bhattacharyya_dist_mat` is not elementwise symmetric
in its two batch arguments: for the unit-variance batches with means (0, 0)
and (0, 1), entry (0, 1) is 1/8 one way and 0 the other way. -/
theorem bhattacharyya_not_elementwise_symmetric :
    bhattacharyya_dist_mat ![![(0 : ℝ)], ![0]] ![![(0 : ℝ)], ![0]]
        ![![(0 : ℝ)], ![1]] ![![(0 : ℝ)], ![0]] 0 1
      ≠ bhattacharyya_dist_mat ![![(0 : ℝ)], ![1]] ![![(0 : ℝ)], ![0]]
        ![![(0 : ℝ)], ![0]] ![![(0 : ℝ)], ![0]] 0 1 := by
  unfold bhattacharyya_dist_mat
  simp [Matrix.dotProduct, Matrix.mulVec_diagonal, Fin.sum_univ_one, Fin.prod_univ_one]
  norm_num

/-- C4 amended: `bhattacharyya_dist_mat` is symmetric in its two batch
arguments up to transposition of the result: entry (i, j) computed from
(G1, G2) equals entry (j, i) computed from (G2, G1).  (Elementwise equality of
the untransposed matrices fails, since entry (i, j) pairs Gaussian i of the
first batch with Gaussian j of the second.) -/
theorem bhattacharyya_transpose_symmetric :
    ∀ (N M d : ℕ) (mus1 logvars1 : Fin N → Fin d → ℝ)
      (mus2 logvars2 : Fin M → Fin d → ℝ) (i : Fin N) (j : Fin M),
      bhattacharyya_dist_mat mus1 logvars1 mus2 logvars2 i j
        = bhattacharyya_dist_mat mus2 logvars2 mus1 logvars1 j i := by
  intro N M d mus1 logvars1 mus2 logvars2 i j
  unfold bhattacharyya_dist_mat
  simp only [Matrix.dotProduct, Matrix.mulVec_diagonal]
  have h1 : (∑ k, (mus1 i k - mus2 j k) *
        (1 / (0.5 * (Real.exp (logvars1 i k) + Real.exp (logvars2 j k)))
          * (mus1 i k - mus2 j k)))
      = ∑ k, (mus2 j k - mus1 i k) *
        (1 / (0.5 * (Real.exp (logvars2 j k) + Real.exp (logvars1 i k)))
          * (mus2 j k - mus1 i k)) :=
    Finset.sum_congr rfl fun k _ => by ring
  have h2 : (∏ k, 0.5 * (Real.exp (logvars1 i k) + Real.exp (logvars2 j k)))
      = ∏ k, 0.5 * (Real.exp (logvars2 j k) + Real.exp (logvars1 i k)) :=
    Finset.prod_congr rfl fun k _ => by ring
  rw [h1, h2, mul_comm (Real.exp (∑ k, logvars1 i k)) (Real.exp (∑ k, logvars2 j k))]

/-- C6: `pairwise_l2_distance` computes the squared Euclidean distance — the
clamped expansion ‖a‖² + ‖b‖² − 2a·b equals Σ_k (A i k − B j k)² — and on
A = [[0,0]], B = [[3,4]] the (0,0) entry is 25. -/
theorem pairwise_l2_distance_correct :
    (∀ (N M d : ℕ) (pts1 : Fin N → Fin d → ℝ) (pts2 : Fin M → Fin d → ℝ)
        (i : Fin N) (j : Fin M),
      pairwise_l2_distance pts1 pts2 i j = ∑ k, (pts1 i k - pts2 j k) ^ 2)
    ∧ pairwise_l2_distance ![![(0 : ℝ), 0]] ![![(3 : ℝ), 4]] 0 0 = 25 := by
  refine ⟨fun N M d pts1 pts2 i j => pairwise_l2_eq pts1 pts2 i j, ?_⟩
  rw [pairwise_l2_eq]
  simp [Fin.sum_univ_two]
  norm_num

/-- C10: whenever the embedding dimensions of the two Gaussian batches differ,
both `bhattacharyya_dist_mat` and `kl_divergence_mat` fail fast with a
ShapeMismatch error (the Python `assert` on `mus2.shape[1]`) instead of
computing any pairwise distances. -/
theorem dimension_mismatch_shape_error :
    ∀ (N d1 M d2 : ℕ) (mus1 logvars1 : Fin N → Fin d1 → ℝ)
      (mus2 logvars2 : Fin M → Fin d2 → ℝ), d1 ≠ d2 →
      bhattacharyya_dist_mat_checked N d1 M d2 mus1 logvars1 mus2 logvars2
          = Except.error "ShapeMismatch"
        ∧ kl_divergence_mat_checked N d1 M d2 mus1 logvars1 mus2 logvars2
          = Except.error "ShapeMismatch" := by
  intro N d1 M d2 mus1 logvars1 mus2 logvars2 h
  unfold bhattacharyya_dist_mat_checked kl_divergence_mat_checked
  exact ⟨dif_neg fun hh => h hh.symm, dif_neg fun hh => h hh.symm⟩

/-- Witness for C10: concrete batches with embedding dimensions 1 and 2 are
rejected by both checked divergence functions. -/
theorem dimension_mismatch_shape_error_witness :
    (1 : ℕ) ≠ 2
    ∧ (bhattacharyya_dist_mat_checked 1 1 1 2 (fun _ _ => (0 : ℝ)) (fun _ _ => 0)
          (fun _ _ => 0) (fun _ _ => 0) = Except.error "ShapeMismatch"
        ∧ kl_divergence_mat_checked 1 1 1 2 (fun _ _ => (0 : ℝ)) (fun _ _ => 0)
          (fun _ _ => 0) (fun _ _ => 0) = Except.error "ShapeMismatch") :=
  ⟨by decide, dimension_mismatch_shape_error 1 1 1 2 (fun _ _ => 0) (fun _ _ => 0)
    (fun _ _ => 0) (fun _ _ => 0) (by decide)⟩

/-- Cauchy–Schwarz for the normalized rows: the dot product of two L2-normalized
vectors lies in [−1, 1]. -/
lemma normalized_dot_mem_Icc {d : ℕ} (a b : Fin d → ℝ) :
    -1 ≤ (∑ k, l2_normalize a k * l2_normalize b k)
    ∧ (∑ k, l2_normalize a k * l2_normalize b k) ≤ 1 := by
  have habs : |∑ k, l2_normalize a k * l2_normalize b k| ≤ 1 := by
    have hsum : (∑ k, l2_normalize a k * l2_normalize b k)
        = (∑ k, a k * b k) / (Real.sqrt (∑ m, a m ^ 2) * Real.sqrt (∑ m, b m ^ 2)) := by
      unfold l2_normalize
      rw [Finset.sum_div]
      exact Finset.sum_congr rfl fun k _ => div_mul_div_comm _ _ _ _
    rcases eq_or_ne (Real.sqrt (∑ m, a m ^ 2) * Real.sqrt (∑ m, b m ^ 2)) 0 with h0 | h0
    · rw [hsum, h0, div_zero, abs_zero]
      norm_num
    · have hcs : |∑ k, a k * b k|
          ≤ Real.sqrt (∑ m, a m ^ 2) * Real.sqrt (∑ m, b m ^ 2) :=
        calc |∑ k, a k * b k| = Real.sqrt ((∑ k, a k * b k) ^ 2) :=
              (Real.sqrt_sq_eq_abs _).symm
          _ ≤ Real.sqrt ((∑ m, a m ^ 2) * ∑ m, b m ^ 2) :=
              Real.sqrt_le_sqrt (Finset.sum_mul_sq_le_sq_mul_sq _ _ _)
          _ = _ := Real.sqrt_mul (Finset.sum_nonneg fun m _ => sq_nonneg _) _
      rw [hsum, abs_div,
        abs_of_nonneg (mul_nonneg (Real.sqrt_nonneg _) (Real.sqrt_nonneg _))]
      exact div_le_one_of_le₀ hcs (mul_nonneg (Real.sqrt_nonneg _) (Real.sqrt_nonneg _))
  exact abs_le.mp habs

/-- C7: for the four distance kinds, `get_scaled_similarity` is the negated
distance kernel divided by the temperature — squared Euclidean distance for
`l2sq`, √(squared distance + 1e-9) for `l2`, the sum of absolute differences
for `l1`, and the maximum absolute difference for `linf`. -/
theorem get_scaled_similarity_distance_kinds :
    ∀ (N M d : ℕ) (e1 : Fin N → Fin (d + 1) → ℝ) (e2 : Fin M → Fin (d + 1) → ℝ) (t : ℝ),
      get_scaled_similarity e1 e2 "l2sq" t
          = Except.ok (fun i j => -(∑ k, (e1 i k - e2 j k) ^ 2) / t)
      ∧ get_scaled_similarity e1 e2 "l2" t
          = Except.ok (fun i j => -Real.sqrt ((∑ k, (e1 i k - e2 j k) ^ 2) + 1e-9) / t)
      ∧ get_scaled_similarity e1 e2 "l1" t
          = Except.ok (fun i j => -(∑ k, |e1 i k - e2 j k|) / t)
      ∧ get_scaled_similarity e1 e2 "linf" t
          = Except.ok (fun i j =>
              -(Finset.univ.sup' ⟨0, Finset.mem_univ 0⟩ fun k => |e1 i k - e2 j k|) / t) := by
  intro N M d e1 e2 t
  unfold get_scaled_similarity
  refine ⟨?_, ?_, ?_, ?_⟩
  · rw [if_pos rfl]
    exact congrArg Except.ok (funext fun i => funext fun j => by
      rw [pairwise_l2_eq, neg_one_mul])
  · rw [if_neg (by decide), if_pos rfl]
    exact congrArg Except.ok (funext fun i => funext fun j => by
      rw [pairwise_l2_eq, neg_one_mul])
  · rw [if_neg (by decide), if_neg (by decide), if_pos rfl]
    exact congrArg Except.ok (funext fun i => funext fun j => by
      unfold pairwise_l1_distance
      rw [neg_one_mul])
  · rw [if_neg (by decide), if_neg (by decide), if_neg (by decide), if_pos rfl]
    exact congrArg Except.ok (funext fun i => funext fun j => by
      unfold pairwise_linf_distance
      rw [neg_one_mul])

/-- A NaN-free fold of optional values sums the underlying reals. -/
lemma foldr_map₂_add_some (l : List ℝ) :
    (l.map some).foldr (Option.map₂ (· + ·)) (some 0) = some l.sum := by
  induction l with
  | nil => rfl
  | cons a l ih =>
    rw [List.map_cons, List.foldr_cons, ih, List.sum_cons]
    rfl

/-- A NaN-free dot product evaluates to the real dot product. -/
lemma odot_some {d : ℕ} (f g : Fin d → ℝ) :
    odot (fun k => some (f k)) (fun k => some (g k)) = some (∑ k, f k * g k) := by
  unfold odot
  rw [show (List.ofFn fun k => Option.map₂ (· * ·) (some (f k)) (some (g k)))
      = (List.ofFn fun k => f k * g k).map some from by rw [List.map_ofFn]; rfl]
  rw [foldr_map₂_add_some, List.sum_ofFn]

/-- A NaN in the first coordinate of either factor poisons the dot product. -/
lemma odot_none_left {d : ℕ} (v w : Fin (d + 1) → Option ℝ) (h : v 0 = none) :
    odot v w = none := by
  unfold odot
  rw [List.ofFn_succ, List.foldr_cons, h, Option.map₂_none_left, Option.map₂_none_left]

/-- C8 counterexample: the cosine branch has no zero-norm guard — for the
zero row, `tf.linalg.normalize`'s unguarded division produces NaN (`none`),
not the zero vector, and the NaN propagates into the output entry, silently
corrupting it. -/
theorem zero_norm_row_yields_nan :
    l2_normalize_unguarded (fun (_ : Fin 1) => (0 : ℝ)) 0 = none
    ∧ l2_normalize_unguarded (fun (_ : Fin 1) => (0 : ℝ)) 0 ≠ some 0
    ∧ cosine_similarity_unguarded (fun (_ : Fin 1) (_ : Fin 1) => (0 : ℝ))
        (fun (_ : Fin 1) (_ : Fin 1) => (0 : ℝ)) 0 0 = none := by
  have h : l2_normalize_unguarded (fun (_ : Fin 1) => (0 : ℝ)) 0 = none := by
    unfold l2_normalize_unguarded fdiv
    simp
  refine ⟨h, by rw [h]; exact fun hc => Option.noConfusion hc, ?_⟩
  unfold cosine_similarity_unguarded
  exact odot_none_left _ _ h

/-- C8 amended: the cosine branch of `get_scaled_similarity` divides each row
by its L2 norm with no zero-norm guard — a zero-norm row yields NaN in every
coordinate and poisons the corresponding output entries, rather than being
treated as a zero vector — while on rows of nonzero norm the normalization is
x/‖x‖, the pre-temperature entries are dot products of normalized rows lying
in [−1, 1], and the branch returns the normalized matrix product divided by
the temperature. -/
theorem cosine_unguarded_normalization :
    ∀ (N M d : ℕ) (e1 : Fin N → Fin (d + 1) → ℝ) (e2 : Fin M → Fin (d + 1) → ℝ) (t : ℝ),
      (∀ (x : Fin (d + 1) → ℝ) (k : Fin (d + 1)), Real.sqrt (∑ m, x m ^ 2) = 0 →
        l2_normalize_unguarded x k = none)
      ∧ (∀ (i : Fin N) (j : Fin M), Real.sqrt (∑ m, e1 i m ^ 2) = 0 →
          cosine_similarity_unguarded e1 e2 i j = none)
      ∧ (∀ (x : Fin (d + 1) → ℝ) (k : Fin (d + 1)), Real.sqrt (∑ m, x m ^ 2) ≠ 0 →
          l2_normalize_unguarded x k = some (l2_normalize x k))
      ∧ (∀ (i : Fin N) (j : Fin M),
          Real.sqrt (∑ m, e1 i m ^ 2) ≠ 0 → Real.sqrt (∑ m, e2 j m ^ 2) ≠ 0 →
          cosine_similarity_unguarded e1 e2 i j
              = some (∑ k, l2_normalize (e1 i) k * l2_normalize (e2 j) k)
            ∧ -1 ≤ (∑ k, l2_normalize (e1 i) k * l2_normalize (e2 j) k)
            ∧ (∑ k, l2_normalize (e1 i) k * l2_normalize (e2 j) k) ≤ 1)
      ∧ get_scaled_similarity e1 e2 "cosine" t
          = Except.ok fun i j =>
              (∑ k, l2_normalize (e1 i) k * l2_normalize (e2 j) k) / t := by
  intro N M d e1 e2 t
  refine ⟨?_, ?_, ?_, ?_, ?_⟩
  · intro x k hx
    unfold l2_normalize_unguarded fdiv
    rw [if_pos hx]
  · intro i j h1
    unfold cosine_similarity_unguarded
    refine odot_none_left _ _ ?_
    unfold l2_normalize_unguarded fdiv
    rw [if_pos h1]
  · intro x k hx
    unfold l2_normalize_unguarded fdiv l2_normalize
    rw [if_neg hx]
  · intro i j h1 h2
    have hv : l2_normalize_unguarded (e1 i) = fun k => some (l2_normalize (e1 i) k) :=
      funext fun k => by
        unfold l2_normalize_unguarded fdiv l2_normalize
        rw [if_neg h1]
    have hw : l2_normalize_unguarded (e2 j) = fun k => some (l2_normalize (e2 j) k) :=
      funext fun k => by
        unfold l2_normalize_unguarded fdiv l2_normalize
        rw [if_neg h2]
    refine ⟨?_, (normalized_dot_mem_Icc (e1 i) (e2 j)).1,
      (normalized_dot_mem_Icc (e1 i) (e2 j)).2⟩
    unfold cosine_similarity_unguarded
    rw [hv, hw, odot_some]
  · unfold get_scaled_similarity
    rw [if_neg (by decide), if_neg (by decide), if_neg (by decide), if_neg (by decide),
      if_pos rfl]

/-- Witness for C8 amended: the zero row of dimension one is normalized to NaN
and poisons its output entry, while the nonzero constant row 2 is normalized
to a real value, its self-similarity entry is the real normalized dot product,
and the cosine branch returns the normalized product divided by the
temperature 1. -/
theorem cosine_unguarded_normalization_witness :
    l2_normalize_unguarded (fun (_ : Fin 1) => (0 : ℝ)) 0 = none
    ∧ cosine_similarity_unguarded (fun (_ : Fin 1) (_ : Fin 1) => (0 : ℝ))
        (fun (_ : Fin 1) (_ : Fin 1) => (2 : ℝ)) 0 0 = none
    ∧ l2_normalize_unguarded (fun (_ : Fin 1) => (2 : ℝ)) 0
        = some (l2_normalize (fun (_ : Fin 1) => (2 : ℝ)) 0)
    ∧ (cosine_similarity_unguarded (fun (_ : Fin 1) (_ : Fin 1) => (2 : ℝ))
          (fun (_ : Fin 1) (_ : Fin 1) => (2 : ℝ)) 0 0
        = some (∑ k, l2_normalize (fun (_ : Fin 1) => (2 : ℝ)) k
            * l2_normalize (fun (_ : Fin 1) => (2 : ℝ)) k))
    ∧ get_scaled_similarity (fun (_ : Fin 1) (_ : Fin 1) => (2 : ℝ))
        (fun (_ : Fin 1) (_ : Fin 1) => (2 : ℝ)) "cosine" 1
        = Except.ok fun i j =>
            (∑ k, l2_normalize ((fun (_ : Fin 1) (_ : Fin 1) => (2 : ℝ)) i) k
              * l2_normalize ((fun (_ : Fin 1) (_ : Fin 1) => (2 : ℝ)) j) k) / 1 := by
  have hz : Real.sqrt (∑ m : Fin 1, (fun (_ : Fin 1) => (0 : ℝ)) m ^ 2) = 0 := by simp
  have h2 : Real.sqrt (∑ m : Fin 1, (fun (_ : Fin 1) => (2 : ℝ)) m ^ 2) ≠ 0 := by
    rw [Real.sqrt_ne_zero']
    simp [Fin.sum_univ_one]
  exact ⟨(cosine_unguarded_normalization 1 1 0 (fun _ _ => 0) (fun _ _ => 2) 1).1
      (fun _ => 0) 0 hz,
    (cosine_unguarded_normalization 1 1 0 (fun _ _ => 0) (fun _ _ => 2) 1).2.1 0 0 hz,
    (cosine_unguarded_normalization 1 1 0 (fun _ _ => 2) (fun _ _ => 2) 1).2.2.1
      (fun _ => 2) 0 h2,
    ((cosine_unguarded_normalization 1 1 0 (fun _ _ => 2) (fun _ _ => 2) 1).2.2.2.1
      0 0 h2 h2).1,
    (cosine_unguarded_normalization 1 1 0 (fun _ _ => 2) (fun _ _ => 2) 1).2.2.2.2⟩

/-- C9 counterexample: the code performs no temperature validation — with the
non-positive temperature −1 and kind `l2sq`, `get_scaled_similarity` returns a
similarity matrix (value 1 = (−distance)/(−1)) instead of failing with an
InvalidArgument error. -/
theorem nonpositive_temperature_not_rejected :
    get_scaled_similarity (fun (_ : Fin 1) (_ : Fin 1) => (0 : ℝ))
        (fun (_ : Fin 1) (_ : Fin 1) => (1 : ℝ)) "l2sq" (-1)
      = Except.ok fun _ _ => 1 := by
  unfold get_scaled_similarity
  rw [if_pos rfl]
  refine congrArg Except.ok (funext fun i => funext fun j => ?_)
  rw [pairwise_l2_eq]
  simp [Fin.sum_univ_one]

/-- C9 amended: `get_scaled_similarity` contains no temperature check — for
every supported kind and every non-positive temperature it still returns a
similarity matrix (dividing by that temperature) rather than an
InvalidArgument error. -/
theorem get_scaled_similarity_no_temperature_check :
    ∀ (N M d : ℕ) (e1 : Fin N → Fin (d + 1) → ℝ) (e2 : Fin M → Fin (d + 1) → ℝ) (t : ℝ),
      t ≤ 0 →
      (get_scaled_similarity e1 e2 "l2sq" t).isOk = true
      ∧ (get_scaled_similarity e1 e2 "l2" t).isOk = true
      ∧ (get_scaled_similarity e1 e2 "l1" t).isOk = true
      ∧ (get_scaled_similarity e1 e2 "linf" t).isOk = true
      ∧ (get_scaled_similarity e1 e2 "cosine" t).isOk = true := by
  intro N M d e1 e2 t _
  unfold get_scaled_similarity
  refine ⟨?_, ?_, ?_, ?_, ?_⟩ <;> simp [Except.isOk, Except.toBool]

/-- Witness for C9 amended: at temperature −1 no kind is rejected. -/
theorem get_scaled_similarity_no_temperature_check_witness :
    ((-1 : ℝ) ≤ 0)
    ∧ ((get_scaled_similarity (fun (_ : Fin 1) (_ : Fin 1) => (0 : ℝ))
          (fun (_ : Fin 1) (_ : Fin 1) => (1 : ℝ)) "l2sq" (-1)).isOk = true
      ∧ (get_scaled_similarity (fun (_ : Fin 1) (_ : Fin 1) => (0 : ℝ))
          (fun (_ : Fin 1) (_ : Fin 1) => (1 : ℝ)) "l2" (-1)).isOk = true
      ∧ (get_scaled_similarity (fun (_ : Fin 1) (_ : Fin 1) => (0 : ℝ))
          (fun (_ : Fin 1) (_ : Fin 1) => (1 : ℝ)) "l1" (-1)).isOk = true
      ∧ (get_scaled_similarity (fun (_ : Fin 1) (_ : Fin 1) => (0 : ℝ))
          (fun (_ : Fin 1) (_ : Fin 1) => (1 : ℝ)) "linf" (-1)).isOk = true
      ∧ (get_scaled_similarity (fun (_ : Fin 1) (_ : Fin 1) => (0 : ℝ))
          (fun (_ : Fin 1) (_ : Fin 1) => (1 : ℝ)) "cosine" (-1)).isOk = true) :=
  ⟨by norm_num,
    get_scaled_similarity_no_temperature_check 1 1 0 (fun _ _ => 0) (fun _ _ => 1) (-1)
      (by norm_num)⟩

/-- Squaring undoes the half inside the exponential. -/
lemma exp_half_sq (x : ℝ) : Real.exp (x / 2) ^ 2 = Real.exp x := by
  rw [← Real.exp_nat_mul]
  congr 1
  push_cast
  ring

/-- The square root of `exp x` is `exp (x/2)`. -/
lemma sqrt_exp_half (x : ℝ) : Real.sqrt (Real.exp x) = Real.exp (x / 2) := by
  rw [← exp_half_sq x, Real.sqrt_sq (Real.exp_nonneg _)]

/-- `√(2π)^d` is the Gaussian normalization constant `(2π)^(d/2)`. -/
lemma sqrt_two_pi_pow (d : ℕ) :
    Real.sqrt (2 * Real.pi) ^ d = (2 * Real.pi) ^ ((d : ℝ) / 2) := by
  rw [Real.sqrt_eq_rpow, ← Real.rpow_natCast ((2 * Real.pi) ^ (1 / 2 : ℝ)) d,
    ← Real.rpow_mul (by positivity)]
  congr 1
  ring

/-- The conditional-density matrix computed by `compute_batch` agrees with the
mathematical diagonal-Gaussian density `p(u_i | x_j)`: the log-domain
subtraction of `Σ logvar_j / 2` and the `(2π)^(d/2)` normalization reproduce
`Π_k N(u_i_k; μ_j_k, exp(logvar_j_k))`. -/
lemma p_eq_gaussian_pdf {B d : ℕ} (mus logvars sampled_u_values : Fin B → Fin d → ℝ)
    (i j : Fin B) :
    p_ui_cond_xj mus logvars sampled_u_values i j
      = gaussian_pdf (sampled_u_values i) (mus j) (logvars j) := by
  unfold p_ui_cond_xj gaussian_pdf
  rw [Finset.prod_div_distrib, ← Real.exp_sum]
  have hden : (∏ k, Real.sqrt (2 * Real.pi * Real.exp (logvars j k)))
      = (2 * Real.pi) ^ ((d : ℝ) / 2) * Real.exp ((∑ k, logvars j k) / 2) := by
    rw [Finset.prod_congr rfl fun k _ =>
        by rw [Real.sqrt_mul (by positivity) (Real.exp (logvars j k)), sqrt_exp_half],
      Finset.prod_mul_distrib, Finset.prod_const, Finset.card_univ, Fintype.card_fin,
      sqrt_two_pi_pow, ← Real.exp_sum, ← Finset.sum_div]
  have hnum : (∑ k, -(sampled_u_values i k - mus j k) ^ 2 / (2 * Real.exp (logvars j k)))
      = -(∑ k, ((sampled_u_values i k - mus j k) / Real.exp (logvars j k / 2)) ^ 2) / 2 := by
    rw [Finset.sum_congr rfl fun k _ => show
        -(sampled_u_values i k - mus j k) ^ 2 / (2 * Real.exp (logvars j k))
          = -(((sampled_u_values i k - mus j k) / Real.exp (logvars j k / 2)) ^ 2 / 2) from
      by rw [div_pow, exp_half_sq]; ring]
    rw [Finset.sum_neg_distrib, ← Finset.sum_div, neg_div]
  rw [hden, hnum, Real.exp_sub, div_div, mul_comm (Real.exp ((∑ k, logvars j k) / 2))]

/-- C1: taking the encoder outputs (mu, logvar) and the sampled points u as
given, the per-batch InfoNCE lower estimate equals the mean over rows i of
`log( p(u_i|x_i) / mean_j p(u_i|x_j) )` over the B×B conditional-density
matrix, and the leave-one-out upper estimate is the identical expression with
the diagonal density zeroed out of the denominator's row-mean while the
numerator `p(u_i|x_i)` is unchanged. -/
theorem infonce_loo_density_formulas :
    ∀ (B d : ℕ) (mus logvars sampled_u_values : Fin B → Fin d → ℝ),
      infonce_lower mus logvars sampled_u_values
        = (∑ i, Real.log (gaussian_pdf (sampled_u_values i) (mus i) (logvars i)
            / ((∑ j, gaussian_pdf (sampled_u_values i) (mus j) (logvars j)) / (B : ℝ))))
          / (B : ℝ)
      ∧ loo_upper mus logvars sampled_u_values
        = (∑ i, Real.log (gaussian_pdf (sampled_u_values i) (mus i) (logvars i)
            / ((∑ j, if i = j then 0
                else gaussian_pdf (sampled_u_values i) (mus j) (logvars j)) / (B : ℝ))))
          / (B : ℝ) := by
  intro B d mus logvars u
  constructor
  · unfold infonce_lower
    simp only [p_eq_gaussian_pdf]
  · unfold loo_upper p_masked
    simp only [p_eq_gaussian_pdf]
    refine congrArg (fun z => z / (B : ℝ)) (Finset.sum_congr rfl fun i _ => ?_)
    rw [Finset.sum_congr rfl fun j _ => show
        gaussian_pdf (u i) (mus j) (logvars j) * (1 - if i = j then 1 else 0)
          = if i = j then 0 else gaussian_pdf (u i) (mus j) (logvars j) from
      by by_cases h : i = j <;> simp [h]]

/-- Every entry of the conditional-density matrix is strictly positive. -/
lemma p_pos {B d : ℕ} (mus logvars sampled_u_values : Fin B → Fin d → ℝ) (i j : Fin B) :
    0 < p_ui_cond_xj mus logvars sampled_u_values i j :=
  div_pos (Real.exp_pos _) (Real.rpow_pos_of_pos (by positivity) _)

/-- The row-sum of the diagonal-zeroed density matrix is the off-diagonal
row-sum. -/
lemma p_masked_row_sum {B d : ℕ} (mus logvars sampled_u_values : Fin B → Fin d → ℝ)
    (i : Fin B) :
    (∑ j, p_masked mus logvars sampled_u_values i j)
      = ∑ j ∈ Finset.univ.erase i, p_ui_cond_xj mus logvars sampled_u_values i j := by
  unfold p_masked
  rw [Finset.sum_congr rfl fun j _ => show
      p_ui_cond_xj mus logvars sampled_u_values i j * (1 - if i = j then 1 else 0)
        = if i = j then 0 else p_ui_cond_xj mus logvars sampled_u_values i j from
    by by_cases h : i = j <;> simp [h]]
  rw [← Finset.sum_erase (f := fun j => if i = j then 0
      else p_ui_cond_xj mus logvars sampled_u_values i j) Finset.univ (if_pos rfl)]
  exact Finset.sum_congr rfl fun j hj =>
    if_neg fun h => (Finset.mem_erase.mp hj).1 h.symm

/-- Per batch, the leave-one-out upper estimate dominates the InfoNCE lower
estimate: zeroing the (positive) diagonal entry can only decrease the
denominator's row-mean while the numerator is unchanged. -/
lemma infonce_le_loo {B d : ℕ} (mus logvars sampled_u_values : Fin B → Fin d → ℝ) :
    infonce_lower mus logvars sampled_u_values ≤ loo_upper mus logvars sampled_u_values := by
  unfold infonce_lower loo_upper
  have hrow : ∀ i : Fin B,
      Real.log (p_ui_cond_xj mus logvars sampled_u_values i i /
          ((∑ j, p_ui_cond_xj mus logvars sampled_u_values i j) / (B : ℝ)))
        ≤ Real.log (p_ui_cond_xj mus logvars sampled_u_values i i /
          ((∑ j, p_masked mus logvars sampled_u_values i j) / (B : ℝ))) := by
    intro i
    have hBpos : (0 : ℝ) < (B : ℝ) := Nat.cast_pos.mpr i.pos
    have hs_pos : 0 < ∑ j, p_ui_cond_xj mus logvars sampled_u_values i j :=
      Finset.sum_pos (fun j _ => p_pos mus logvars sampled_u_values i j)
        ⟨i, Finset.mem_univ i⟩
    have hs'_nonneg : 0 ≤ ∑ j, p_masked mus logvars sampled_u_values i j := by
      rw [p_masked_row_sum]
      exact Finset.sum_nonneg fun j _ => (p_pos mus logvars sampled_u_values i j).le
    rcases eq_or_lt_of_le hs'_nonneg with h0 | h0
    · -- the zeroed row sums to 0: only possible when the batch has size 1
      have herase : (Finset.univ : Finset (Fin B)).erase i = ∅ := by
        by_contra hne
        obtain ⟨j, hj⟩ := Finset.nonempty_iff_ne_empty.mpr hne
        have hpos : 0 < ∑ j ∈ Finset.univ.erase i,
            p_ui_cond_xj mus logvars sampled_u_values i j :=
          Finset.sum_pos (fun j' _ => p_pos mus logvars sampled_u_values i j') ⟨j, hj⟩
        rw [← p_masked_row_sum, ← h0] at hpos
        exact lt_irrefl 0 hpos
      have huniv : (Finset.univ : Finset (Fin B)) = {i} := by
        rcases (Finset.erase_eq_empty_iff _ _).mp herase with h | h
        · exact absurd h (Finset.nonempty_iff_ne_empty.mp ⟨i, Finset.mem_univ i⟩)
        · exact h
      have hB1 : (B : ℝ) = 1 := by
        have hc := congrArg Finset.card huniv
        rw [Finset.card_univ, Fintype.card_fin, Finset.card_singleton] at hc
        rw [hc]
        norm_num
      have hs_eq : (∑ j, p_ui_cond_xj mus logvars sampled_u_values i j)
          = p_ui_cond_xj mus logvars sampled_u_values i i := by
        rw [← Finset.add_sum_erase Finset.univ
            (fun j => p_ui_cond_xj mus logvars sampled_u_values i j) (Finset.mem_univ i),
          herase, Finset.sum_empty, add_zero]
      rw [← h0, zero_div, div_zero, Real.log_zero, hs_eq, hB1, div_one,
        div_self (p_pos mus logvars sampled_u_values i i).ne', Real.log_one]
    · -- the zeroed row-sum is positive: monotonicity of log and division
      have hs'_le : (∑ j, p_masked mus logvars sampled_u_values i j)
          ≤ ∑ j, p_ui_cond_xj mus logvars sampled_u_values i j := by
        rw [p_masked_row_sum]
        exact Finset.sum_le_sum_of_subset_of_nonneg
          (Finset.erase_subset i Finset.univ)
          (fun j _ _ => (p_pos mus logvars sampled_u_values i j).le)
      have hdivle : (∑ j, p_masked mus logvars sampled_u_values i j) / (B : ℝ)
          ≤ (∑ j, p_ui_cond_xj mus logvars sampled_u_values i j) / (B : ℝ) := by
        rw [div_eq_mul_inv, div_eq_mul_inv]
        exact mul_le_mul_of_nonneg_right hs'_le (inv_nonneg.mpr hBpos.le)
      exact Real.log_le_log
        (div_pos (p_pos mus logvars sampled_u_values i i) (div_pos hs_pos hBpos))
        (div_le_div_of_nonneg_left (p_pos mus logvars sampled_u_values i i).le
          (div_pos h0 hBpos) hdivle)
  rw [div_eq_mul_inv, div_eq_mul_inv]
  exact mul_le_mul_of_nonneg_right (Finset.sum_le_sum fun i _ => hrow i)
    (inv_nonneg.mpr (Nat.cast_nonneg B))

/-- C2: for every single evaluation batch — any encoder outputs (mu, logvar)
and any sampled points u — the per-batch leave-one-out upper estimate is at
least the per-batch InfoNCE lower estimate (every conditional density is
positive, so zeroing the diagonal only decreases the denominator's row-mean),
and consequently the upper bound returned by `estimate_mi_sandwich_bounds` is
at least the lower bound it returns. -/
theorem loo_upper_ge_infonce_lower :
    ∀ (B d : ℕ),
      (∀ mus logvars sampled_u_values : Fin B → Fin d → ℝ,
        infonce_lower mus logvars sampled_u_values
          ≤ loo_upper mus logvars sampled_u_values)
      ∧ ∀ batches : List ((Fin B → Fin d → ℝ) × (Fin B → Fin d → ℝ) × (Fin B → Fin d → ℝ)),
          (estimate_mi_sandwich_bounds batches).1 ≤ (estimate_mi_sandwich_bounds batches).2 := by
  intro B d
  refine ⟨fun mus logvars u => infonce_le_loo mus logvars u, fun batches => ?_⟩
  unfold estimate_mi_sandwich_bounds
  rw [div_eq_mul_inv, div_eq_mul_inv]
  exact mul_le_mul_of_nonneg_right
    (List.sum_le_sum fun t _ => infonce_le_loo t.1 t.2.1 t.2.2)
    (inv_nonneg.mpr (Nat.cast_nonneg batches.length))

end DIB
